import Mathlib

/-!
Verification of the text-injection engine of `packages/pinion/src/ops/inject.ts`.

Strings are modelled as `List Char`. File-system and logging effects of the
`inject` operation are modelled by explicit result records and an explicit list
of performed I/O operations. JavaScript regular expressions are modelled by an
abstract search function: a literal string pattern goes through the faithful
embedding of `escapeString` followed by a compiler for regex sources that
consist purely of literal atoms (which is exactly the shape `escapeString`
produces), while an arbitrary regex is an abstract first-match search function.
-/

namespace Pinion

/-- The line-feed separator `"\n"`. -/
def lfS : List Char := ['\n']

/-- The carriage-return/line-feed separator `"\r\n"`. -/
def crlfS : List Char := ['\r', '\n']

/-- The single-quote character used in the error messages of `inject.ts`. -/
def quoteC : Char := '\x27'

/-- Embeds the scan of `str.match(/(?:\r?\n)/g)` from `newline` (inject.ts
line 112) together with the classification of lines 118-119: returns the pair
(number of occurrences classified CRLF, number classified bare LF). The JS
regex scans left to right, non-overlapping, preferring `\r\n` over `\n`. -/
def countNewlines : List Char → Nat × Nat
  | '\r' :: '\n' :: rest =>
    ((countNewlines rest).1 + 1, (countNewlines rest).2)
  | '\n' :: rest => ((countNewlines rest).1, (countNewlines rest).2 + 1)
  | _ :: rest => countNewlines rest
  | [] => (0, 0)

/-- Number of newline occurrences classified as CRLF. -/
def crlfCount (s : List Char) : Nat := (countNewlines s).1

/-- Number of newline occurrences classified as bare LF. -/
def lfCount (s : List Char) : Nat := (countNewlines s).2

/-- Embeds `newline` (inject.ts lines 111-122): the platform default `EOL`
(a parameter of the model) when the content has no newline occurrence,
otherwise `"\r\n"` exactly when the CRLF count strictly exceeds the bare-LF
count, else `"\n"`. -/
def newline (EOL s : List Char) : List Char :=
  if crlfCount s + lfCount s = 0 then EOL
  else if lfCount s < crlfCount s then crlfS else lfS

/-- Embeds `String.prototype.split` with a non-empty plain-string separator
`c0 :: cs` (used by inject.ts line 34 as `fileContent.split(NL)`): scan left
to right, cutting at every leftmost non-overlapping occurrence of the
separator. `acc` holds the reversed characters of the current segment. -/
def splitOnAux (c0 : Char) (cs : List Char) (s acc : List Char) :
    List (List Char) :=
  match s with
  | [] => [acc.reverse]
  | d :: rest =>
    if (c0 :: cs).isPrefixOf (d :: rest) then
      acc.reverse :: splitOnAux c0 cs (rest.drop cs.length) []
    else
      splitOnAux c0 cs rest (d :: acc)
termination_by s.length
decreasing_by
  · simp [List.length_drop]; omega
  · simp

/-- `s.split(sep)` for a plain-string separator. The `inject` operation only
ever splits on the result of `newline`, which is `"\r\n"`, `"\n"` or the
platform `EOL` — never the empty string, so the `[]` separator branch is
inert. -/
def splitOnStr (sep s : List Char) : List (List Char) :=
  match sep with
  | [] => [s]
  | c0 :: cs => splitOnAux c0 cs s []

/-- Embeds `Array.prototype.join(sep)` (inject.ts line 42 and the `'\n'` join
of line 58). -/
def joinWith (sep : List Char) : List (List Char) → List Char
  | [] => []
  | [p] => p
  | p :: q :: rest => p ++ sep ++ joinWith sep (q :: rest)

/-- Embeds `lines.splice(index, 0, content)` for a non-negative index
(inject.ts line 39): inserts `x` as a new element at position `i`, clamping
`i` to the length of the list exactly as `splice` does. -/
def insertClamped (l : List (List Char)) (i : Nat) (x : List Char) :
    List (List Char) :=
  l.take i ++ x :: l.drop i

/-- Embeds `String.prototype.split(EOLRegex)` where `EOLRegex = /\r?\n/`
(inject.ts lines 8, 64, 68): cut at each leftmost match, a match being
`"\r\n"` when available and otherwise `"\n"`. -/
def splitEOLAux (s acc : List Char) : List (List Char) :=
  match s with
  | '\r' :: '\n' :: rest => acc.reverse :: splitEOLAux rest []
  | '\n' :: rest => acc.reverse :: splitEOLAux rest []
  | c :: rest => splitEOLAux rest (c :: acc)
  | [] => [acc.reverse]

/-- `s.split(/\r?\n/)`. -/
def splitEOLRegex (s : List Char) : List (List Char) := splitEOLAux s []

/-- Number of `'\n'` characters in `s`. -/
def countLF (s : List Char) : Nat := s.count '\n'

/-- The zero-based line number on which the character offset `off` of `s`
falls, counting a line break at every `'\n'`. -/
def lineOfOffset (s : List Char) (off : Nat) : Nat := countLF (s.take off)

/-- The character class of `escapeString` (inject.ts line 51):
`[.*+?^${}()|[\]\\]`. -/
def metachars : List Char :=
  ['.', '*', '+', '?', '^', '$', '\x7b', '\x7d', '(', ')', '|', '[', ']', '\\']

/-- Embeds `escapeString` (inject.ts line 51): prefix every regex
metacharacter with a backslash. -/
def escapeString : List Char → List Char
  | [] => []
  | c :: rest =>
    (if c ∈ metachars then ['\\', c] else [c]) ++ escapeString rest

/-- Compilation of a regex source that consists purely of literal atoms — a
backslash-escaped character, or a plain character that is not a
metacharacter — into the literal character sequence the regex denotes. This
is the shape `escapeString` always produces; a source containing an
unescaped metacharacter is not a sequence of literal atoms and is rejected.
Such a regex (with or without the `m` flag, which only affects `^`/`$`
anchors and these sources contain none) matches exactly the occurrences of
the denoted literal text. -/
def parseLiteralAtoms : List Char → Option (List Char)
  | [] => some []
  | c :: rest =>
    if c = '\\' then
      match rest with
      | [] => none
      | d :: rest2 => (parseLiteralAtoms rest2).map (fun l => d :: l)
    else if c ∈ metachars then none
    else (parseLiteralAtoms rest).map (fun l => c :: l)

/-- `new RegExp(escapeString(pattern), 'm')` (inject.ts line 54), compiled
through `parseLiteralAtoms`. -/
def compileLit (p : List Char) : Option (List Char) :=
  parseLiteralAtoms (escapeString p)

/-- First-match search for a literal character sequence: the least index at
which `p` occurs inside `s`, like `s.match(regex).index` for a
literal-atom regex. -/
def litIndex (p : List Char) : List Char → Option Nat
  | [] => if p = [] then some 0 else none
  | c :: rest =>
    if p.isPrefixOf (c :: rest) then some 0
    else (litIndex p rest).map (fun i => i + 1)

/-- The result of a successful JS `String.prototype.match` with a non-global
regex: the match's start `index` and the match array `entries`, whose head
is the matched text and whose tail holds the capture groups. -/
structure MatchRes where
  index : Nat
  entries : List (List Char)
deriving DecidableEq

/-- `fullMatch.toString()` (inject.ts line 66): JavaScript stringifies the
match array by joining all its entries with commas. -/
def matchToString (m : MatchRes) : List Char := joinWith [','] m.entries

/-- A pattern as accepted by `before`/`after`: a literal string, or a regex
given by its abstract first-match search function together with its display
text (what `${pattern}` interpolates, i.e. `/source/flags`). -/
inductive Pat where
  | lit (s : List Char)
  | re (search : List Char → Option MatchRes) (display : List Char)

/-- `${line}` interpolation of a pattern into an error message. -/
def patDisplay : Pat → List Char
  | Pat.lit s => s
  | Pat.re _ d => d

/-- `s.match(matcher)` where `matcher` is built as in inject.ts line 54: a
literal string is escaped and compiled with the `m` flag, a regex is used
as-is. -/
def patSearch : Pat → List Char → Option MatchRes
  | Pat.lit p, s =>
    match compileLit p with
    | some atoms =>
      (litIndex atoms s).map (fun i => { index := i, entries := [atoms] })
    | none => none
  | Pat.re f _, s => f s

/-- Truthiness of `l.match(matcher)` (inject.ts line 55): a match array is
always truthy. -/
def lineMatches (pat : Pat) (l : List Char) : Bool :=
  (patSearch pat l).isSome

/-- Embeds `Array.prototype.findIndex` (inject.ts line 55): the index of the
first element satisfying the predicate, or `-1`. -/
def findIndexInt (p : List Char → Bool) : List (List Char) → Int
  | [] => -1
  | l :: rest =>
    if p l then 0
    else
      let r := findIndexInt p rest
      if r < 0 then -1 else r + 1

/-- Embeds `getLineNumber` (inject.ts lines 53-75). `fullMatch.index || 0`
is `m.index` here since a match index is always a number; the guard
`fullMatch && fullMatch.length` is satisfied by every successful non-global
match, whose array has at least one entry. -/
def getLineNumber (pat : Pat) (lines : List (List Char)) (isBefore : Bool) :
    Int :=
  let oneLineMatchIndex := findIndexInt (fun l => lineMatches pat l) lines
  if oneLineMatchIndex < 0 then
    let fullText := joinWith lfS lines
    match patSearch pat fullText with
    | some m =>
      if isBefore then
        ((splitEOLRegex (fullText.take m.index)).length : Int) - 1
      else
        ((splitEOLRegex
            (fullText.take (m.index + (matchToString m).length))).length : Int)
    | none => oneLineMatchIndex
  else
    oneLineMatchIndex + (if isBefore then 0 else 1)

/-- The `{ index, pattern }` record produced by an anchor resolver. -/
structure LocRes where
  index : Int
  pattern : Option Pat

/-- The error message of `before` (inject.ts line 84). -/
def beforeMsg (pat : Pat) (fileName : List Char) : List Char :=
  "Could not find line ".data ++ [quoteC] ++ patDisplay pat ++ [quoteC] ++
    " in file ".data ++ fileName ++ " to inject content before".data

/-- The error message of `after` (inject.ts line 97). -/
def afterMsg (pat : Pat) (fileName : List Char) : List Char :=
  "Could not find line ".data ++ [quoteC] ++ patDisplay pat ++ [quoteC] ++
    " in file ".data ++ fileName ++ " to inject content after".data

/-- Embeds the `before` anchor resolver (inject.ts lines 77-88); the pattern
is taken already resolved (`getCallable` resolution happens outside this
model) and the context argument is unused by the source function. Throwing
is modelled by `Except.error` carrying the message. -/
def beforeRun (pat : Pat) (lines : List (List Char)) (fileName : List Char) :
    Except (List Char) LocRes :=
  let index := getLineNumber pat lines true
  if index < 0 then Except.error (beforeMsg pat fileName)
  else Except.ok { index := index, pattern := some pat }

/-- Embeds the `after` anchor resolver (inject.ts lines 90-101). -/
def afterRun (pat : Pat) (lines : List (List Char)) (fileName : List Char) :
    Except (List Char) LocRes :=
  let index := getLineNumber pat lines false
  if index < 0 then Except.error (afterMsg pat fileName)
  else Except.ok { index := index, pattern := some pat }

/-- Embeds `prepend` (inject.ts lines 103-105): ignores every input and
yields index 0 with no pattern. -/
def prependLoc (_lines : List (List Char)) (_fileName : List Char) :
    Except (List Char) LocRes :=
  Except.ok { index := 0, pattern := none }

/-- Embeds `append` (inject.ts lines 107-109): yields the number of lines
with no pattern. -/
def appendLoc (lines : List (List Char)) (_fileName : List Char) :
    Except (List Char) LocRes :=
  Except.ok { index := (lines.length : Int), pattern := none }

/-- `p` occurs as a contiguous substring of `l`. -/
def SubstringOf (p l : List Char) : Prop := ∃ t u, l = t ++ p ++ u

/-- A trace entry as appended by `addTrace(ctx, 'inject', { fileName,
content })` (inject.ts line 48). Modelled from the spec: `addTrace` lives in
`ops/helpers`, which is not among the available sources; §4.6 specifies that
it returns the context with exactly this one record appended to the trace
sequence. -/
structure TraceEntry where
  action : List Char
  fileName : List Char
  content : List Char
deriving DecidableEq

/-- A file-system operation performed by `inject`: the read of line 31 or
the write of line 44. -/
inductive FsOp where
  | read (name : List Char)
  | write (name content : List Char)
deriving DecidableEq

/-- The observable outcome of a successful `inject` run: the content written
to the target file, the notice-level log message (inject.ts line 46; the
logger itself is an external capability per spec §6), and the trace after
appending the inject entry. -/
structure InjectSuccess where
  written : List Char
  notice : List Char
  trace : List TraceEntry
deriving DecidableEq

/-- The error message of inject.ts line 28. -/
def cannotInjectMsg (fileName : List Char) : List Char :=
  "Cannot inject to ".data ++ [quoteC] ++ fileName ++ [quoteC] ++
    ". The file doesn".data ++ [quoteC] ++ "t exist.".data

/-- The new file content computed by `inject` (inject.ts lines 33-42): split
the file on its dominant newline, splice the content in at a non-negative
index (skip the splice otherwise), and rejoin with the same newline. -/
def injectWritten (EOL fileContent content : List Char) (index : Int) :
    List Char :=
  let NL := newline EOL fileContent
  let lines := splitOnStr NL fileContent
  joinWith NL
    (if 0 ≤ index then insertClamped lines index.toNat content else lines)

/-- The type of an anchor resolver as called by `inject` (inject.ts line
36): it receives the split lines and the file name that `inject` passes
(the path of the target relative to the working directory, computed by the
external `path.relative`), and either throws or yields a location. The
context argument is dropped: every resolver in the source ignores it except
for `getCallable` resolution, which happens outside this model. -/
def Location : Type :=
  List (List Char) → List Char → Except (List Char) LocRes

/-- Embeds the body of the operation returned by `inject` (inject.ts lines
22-49) after `getCallable` has resolved the target path and content.
`fileExists` stands for `existsSync(fileName)` and `fileContent` for the
bytes `readFile` would produce. The first component is the thrown error or
the success record; the second lists the file-system operations performed,
in order, so that "fails before any read/write" is expressible. -/
def injectRun (EOL fileName relativeName : List Char) (fileExists : Bool)
    (fileContent content : List Char) (location : Location)
    (trace0 : List TraceEntry) :
    Except (List Char) InjectSuccess × List FsOp :=
  if fileExists = false then
    (Except.error (cannotInjectMsg fileName), [])
  else
    let NL := newline EOL fileContent
    let lines := splitOnStr NL fileContent
    match location lines relativeName with
    | Except.error e => (Except.error e, [FsOp.read fileName])
    | Except.ok loc =>
      let newContent := injectWritten EOL fileContent content loc.index
      (Except.ok
        { written := newContent
          notice := "Updated ".data ++ relativeName
          trace := trace0 ++ [⟨"inject".data, fileName, content⟩] },
       [FsOp.read fileName, FsOp.write fileName newContent])

/-- Models the JavaScript regex `/B(\nC)/`: it matches exactly where the
text `"B\nC"` occurs (leftmost match first), and its match array holds the
matched text `"B\nC"` followed by the capture group `"\nC"`. -/
def groupSearch (s : List Char) : Option MatchRes :=
  (litIndex "B\nC".data s).map
    (fun i => { index := i, entries := ["B\nC".data, "\nC".data] })

/-- The `/B(\nC)/` regex as a pattern; its display text is the source
between slashes, as JavaScript stringifies a RegExp. -/
def groupPat : Pat := Pat.re groupSearch "/B(\\nC)/".data

theorem isPrefixOf_iff_exists (p l : List Char) :
    p.isPrefixOf l = true ↔ ∃ u, l = p ++ u := by
  induction p generalizing l with
  | nil => simp [List.isPrefixOf]
  | cons a p ih =>
    cases l with
    | nil => simp [List.isPrefixOf]
    | cons b l =>
      simp only [List.isPrefixOf, Bool.and_eq_true, beq_iff_eq, ih,
        List.cons_append, List.cons.injEq]
      constructor
      · rintro ⟨rfl, u, rfl⟩; exact ⟨u, rfl, rfl⟩
      · rintro ⟨u, rfl, rfl⟩; exact ⟨rfl, u, rfl⟩

theorem countNewlines_other (head : Char) (rest : List Char)
    (h1 : head = '\r' → rest.head? ≠ some '\n') (h2 : head ≠ '\n') :
    countNewlines (head :: rest) = countNewlines rest := by
  rw [countNewlines.eq_def]
  split
  · rename_i r1 heq
    simp only [List.cons.injEq] at heq
    exact (h1 heq.1 (by rw [heq.2]; rfl)).elim
  · rename_i heq
    simp only [List.cons.injEq] at heq
    exact (h2 heq.1).elim
  · rename_i heq
    simp only [List.cons.injEq] at heq
    rw [heq.2]
  · rename_i heq
    exact (List.cons_ne_nil _ _ heq).elim

theorem countLF_cons_ne (c : Char) (rest : List Char) (h : c ≠ '\n') :
    countLF (c :: rest) = countLF rest := by
  simp [countLF, List.count_cons, h]

theorem countLF_cons_lf (rest : List Char) :
    countLF ('\n' :: rest) = countLF rest + 1 := by
  simp [countLF, List.count_cons]

theorem splitEOLAux_other (c : Char) (rest acc : List Char)
    (h1 : c = '\r' → rest.head? ≠ some '\n') (h2 : c ≠ '\n') :
    splitEOLAux (c :: rest) acc = splitEOLAux rest (c :: acc) := by
  rw [splitEOLAux.eq_def]
  split
  · rename_i r1 heq
    simp only [List.cons.injEq] at heq
    exact (h1 heq.1 (by rw [heq.2]; rfl)).elim
  · rename_i heq
    simp only [List.cons.injEq] at heq
    exact (h2 heq.1).elim
  · rename_i d r heq
    simp only [List.cons.injEq] at heq
    rw [heq.1, heq.2]
  · rename_i heq
    exact (List.cons_ne_nil _ _ heq).elim

theorem splitEOLAux_length (s : List Char) :
    ∀ acc, (splitEOLAux s acc).length = countLF s + 1 := by
  induction s using countNewlines.induct with
  | case1 rest ih =>
    intro acc
    show (acc.reverse :: splitEOLAux rest []).length = _
    rw [List.length_cons, ih, countLF_cons_ne _ _ (by decide),
      countLF_cons_lf]
  | case2 rest ih =>
    intro acc
    show (acc.reverse :: splitEOLAux rest []).length = _
    rw [List.length_cons, ih, countLF_cons_lf]
  | case3 c rest h1 h2 ih =>
    intro acc
    rw [splitEOLAux_other c rest acc
      (fun hc hh => by
        obtain ⟨r1, hr⟩ := List.head?_eq_some_iff.mp hh
        exact h1 r1 hc hr) h2]
    rw [ih, countLF_cons_ne _ _ h2]
  | case4 => intro acc; simp [splitEOLAux, countLF]

theorem splitEOLRegex_length (s : List Char) :
    (splitEOLRegex s).length = countLF s + 1 :=
  splitEOLAux_length s []

theorem splitOnAux_ne_nil (c0 : Char) (cs s acc : List Char) :
    splitOnAux c0 cs s acc ≠ [] := by
  induction s, acc using splitOnAux.induct c0 cs with
  | case1 acc => simp [splitOnAux]
  | case2 acc d rest h ih => simp [splitOnAux, h]
  | case3 acc d rest h ih => simpa [splitOnAux, h] using ih

theorem joinWith_cons_cons (sep p : List Char) (q : List Char)
    (rest : List (List Char)) :
    joinWith sep (p :: q :: rest) = p ++ sep ++ joinWith sep (q :: rest) :=
  rfl

theorem joinWith_cons_of_ne_nil (sep p : List Char)
    (l : List (List Char)) (h : l ≠ []) :
    joinWith sep (p :: l) = p ++ sep ++ joinWith sep l := by
  cases l with
  | nil => exact (h rfl).elim
  | cons q rest => rfl

theorem joinWith_splitOnAux (c0 : Char) (cs : List Char) (s acc : List Char) :
    joinWith (c0 :: cs) (splitOnAux c0 cs s acc) = acc.reverse ++ s := by
  induction s, acc using splitOnAux.induct c0 cs with
  | case1 acc => simp [splitOnAux, joinWith]
  | case2 acc d rest h ih =>
    rw [splitOnAux, if_pos h,
      joinWith_cons_of_ne_nil _ _ _ (splitOnAux_ne_nil c0 cs _ _), ih]
    have hpre := (isPrefixOf_iff_exists (c0 :: cs) (d :: rest)).mp h
    obtain ⟨u, hu⟩ := hpre
    have hd : d = c0 := by
      have := congrArg (fun l => l.head?) hu
      simpa using this
    have hrest : rest = cs ++ u := by
      have := congrArg (fun l => l.tail) hu
      simpa using this
    subst hd
    rw [hrest, List.drop_left]
    simp
  | case3 acc d rest h ih =>
    rw [splitOnAux, if_neg h, ih]
    simp

/-- Splitting on a non-empty plain separator and rejoining with the same
separator restores the string exactly. -/
theorem joinWith_splitOnStr (sep s : List Char) (h : sep ≠ []) :
    joinWith sep (splitOnStr sep s) = s := by
  cases sep with
  | nil => exact (h rfl).elim
  | cons c0 cs =>
    rw [splitOnStr]
    simpa using joinWith_splitOnAux c0 cs s []

theorem splitOnAux_mem_chars (c0 : Char) (cs : List Char)
    (s acc : List Char) (p : List Char) (hp : p ∈ splitOnAux c0 cs s acc)
    (ch : Char) (hch : ch ∈ p) : ch ∈ s ∨ ch ∈ acc := by
  induction s, acc using splitOnAux.induct c0 cs generalizing p with
  | case1 acc =>
    simp only [splitOnAux, List.mem_singleton] at hp
    subst hp
    right
    simpa using hch
  | case2 acc d rest h ih =>
    rw [splitOnAux, if_pos h] at hp
    rcases List.mem_cons.mp hp with hp1 | hp2
    · subst hp1
      right
      simpa using hch
    · rcases ih _ hp2 hch with h1 | h2
      · left
        exact List.mem_cons_of_mem d (List.mem_of_mem_drop h1)
      · exact absurd h2 (List.not_mem_nil ch)
  | case3 acc d rest h ih =>
    rw [splitOnAux, if_neg h] at hp
    rcases ih _ hp hch with h1 | h2
    · exact Or.inl (List.mem_cons_of_mem d h1)
    · rcases List.mem_cons.mp h2 with h3 | h4
      · exact Or.inl (h3 ▸ List.mem_cons_self d rest)
      · exact Or.inr h4

theorem countNewlines_no_lf (s : List Char) (h : '\n' ∉ s) :
    countNewlines s = (0, 0) := by
  induction s using countNewlines.induct with
  | case1 rest ih => simp at h
  | case2 rest ih => simp at h
  | case3 c rest h1 h2 ih =>
    rw [countNewlines_other c rest
      (fun hc hh => by
        obtain ⟨r1, hr⟩ := List.head?_eq_some_iff.mp hh
        exact h1 r1 hc hr) (fun hcn => h2 hcn)]
    exact ih (fun hm => h (List.mem_cons_of_mem c hm))
  | case4 => rfl

theorem countNewlines_append_crlf (p u : List Char) (h : '\n' ∉ p) :
    countNewlines (p ++ '\r' :: '\n' :: u) =
      ((countNewlines u).1 + 1, (countNewlines u).2) := by
  induction p with
  | nil => simp [countNewlines]
  | cons c p' ih =>
    have hc : c ≠ '\n' := fun hc => h (hc ▸ List.mem_cons_self c p')
    have hp' : '\n' ∉ p' := fun hm => h (List.mem_cons_of_mem c hm)
    rw [List.cons_append, countNewlines_other c _ ?h1 hc, ih hp']
    case h1 =>
      intro _ hh
      cases p' with
      | nil => simp at hh
      | cons e p'' =>
        have he : e ≠ '\n' := fun he => hp' (he ▸ List.mem_cons_self e p'')
        simp at hh
        exact he hh

theorem lfCount_joinWith_crlf (parts : List (List Char))
    (h : ∀ p ∈ parts, '\n' ∉ p) : lfCount (joinWith crlfS parts) = 0 := by
  induction parts with
  | nil => rfl
  | cons p rest ih =>
    cases rest with
    | nil =>
      show lfCount p = 0
      rw [lfCount, countNewlines_no_lf p (h p (List.mem_cons_self p []))]
    | cons q rest' =>
      rw [joinWith_cons_cons, crlfS, List.append_assoc]
      show lfCount (p ++ '\r' :: '\n' :: joinWith crlfS (q :: rest')) = 0
      rw [lfCount,
        countNewlines_append_crlf _ _ (h p (List.mem_cons_self p _))]
      exact ih (fun r hr => h r (List.mem_cons_of_mem p hr))

theorem countNewlines_no_cr (s : List Char) (h : '\r' ∉ s) :
    (countNewlines s).1 = 0 := by
  induction s using countNewlines.induct with
  | case1 rest ih => simp at h
  | case2 rest ih =>
    show (countNewlines rest).1 = 0
    exact ih (fun hm => h (List.mem_cons_of_mem _ hm))
  | case3 c rest h1 h2 ih =>
    rw [countNewlines_other c rest
      (fun hc hh => by
        obtain ⟨r1, hr⟩ := List.head?_eq_some_iff.mp hh
        exact h1 r1 hc hr) (fun hcn => h2 hcn)]
    exact ih (fun hm => h (List.mem_cons_of_mem c hm))
  | case4 => rfl

theorem mem_joinWith (sep : List Char) (parts : List (List Char)) (ch : Char)
    (h : ch ∈ joinWith sep parts) :
    (∃ p ∈ parts, ch ∈ p) ∨ ch ∈ sep := by
  induction parts with
  | nil => simp [joinWith] at h
  | cons p rest ih =>
    cases rest with
    | nil =>
      exact Or.inl ⟨p, List.mem_cons_self p [], h⟩
    | cons q rest' =>
      rw [joinWith_cons_cons] at h
      rcases List.mem_append.mp h with h1 | h2
      · rcases List.mem_append.mp h1 with h3 | h4
        · exact Or.inl ⟨p, List.mem_cons_self p _, h3⟩
        · exact Or.inr h4
      · rcases ih h2 with ⟨r, hr, hchr⟩ | h5
        · exact Or.inl ⟨r, List.mem_cons_of_mem p hr, hchr⟩
        · exact Or.inr h5

theorem crlf_isPrefixOf_iff (d : Char) (rest : List Char) :
    (['\r', '\n'] : List Char).isPrefixOf (d :: rest) = true ↔
      d = '\r' ∧ rest.head? = some '\n' := by
  cases rest with
  | nil => simp [List.isPrefixOf]
  | cons e rest' =>
    simp only [List.isPrefixOf, Bool.and_eq_true, beq_iff_eq, List.head?_cons,
      Option.some.injEq]
    constructor
    · rintro ⟨h1, h2⟩
      exact ⟨h1.symm, h2.1.symm⟩
    · rintro ⟨h1, h2⟩
      exact ⟨h1.symm, h2.symm, trivial⟩

theorem splitOnAux_crlf_no_lf (s acc : List Char) (h : lfCount s = 0)
    (hacc : '\n' ∉ acc) :
    ∀ p ∈ splitOnAux '\r' ['\n'] s acc, '\n' ∉ p := by
  induction s, acc using splitOnAux.induct '\r' ['\n'] with
  | case1 acc =>
    intro p hp
    simp only [splitOnAux, List.mem_singleton] at hp
    subst hp
    simpa using hacc
  | case2 acc d rest hpre ih =>
    intro p hp
    rw [splitOnAux, if_pos hpre] at hp
    obtain ⟨hd, hh⟩ := (crlf_isPrefixOf_iff d rest).mp hpre
    obtain ⟨u, hu⟩ := List.head?_eq_some_iff.mp hh
    have hdrop : rest.drop 1 = u := by rw [hu]; rfl
    have hlfu : lfCount u = 0 := by
      subst hd
      rw [hu] at h
      simpa [lfCount, countNewlines] using h
    rcases List.mem_cons.mp hp with hp1 | hp2
    · subst hp1
      simpa using hacc
    · have := ih (by simpa [lfCount, hdrop] using hlfu)
        (List.not_mem_nil '\n')
      exact this p (by simpa [hdrop] using hp2)
  | case3 acc d rest hpre ih =>
    intro p hp
    rw [splitOnAux, if_neg hpre] at hp
    have hd : d ≠ '\n' := by
      intro hd
      subst hd
      simp [lfCount, countNewlines] at h
    have hrest : lfCount rest = 0 := by
      rw [lfCount, countNewlines_other d rest ?h1 hd] at h
      · exact h
      case h1 =>
        intro hdc hh
        exact hpre ((crlf_isPrefixOf_iff d rest).mpr ⟨hdc, hh⟩)
    exact ih hrest (by
      intro hm
      rcases List.mem_cons.mp hm with h1 | h2
      · exact hd h1.symm
      · exact hacc h2) p hp

theorem findIndexInt_neg_iff (p : List Char → Bool)
    (l : List (List Char)) :
    findIndexInt p l < 0 ↔ ∀ x ∈ l, p x = false := by
  induction l with
  | nil => simp [findIndexInt]
  | cons a rest ih =>
    simp only [findIndexInt]
    by_cases hpa : p a
    · simp [hpa]
    · simp only [hpa, if_false]
      by_cases hr : findIndexInt p rest < 0
      · simp only [hr, if_pos]
        simp only [Bool.not_eq_true] at hpa
        constructor
        · intro _
          intro x hx
          rcases List.mem_cons.mp hx with h1 | h2
          · exact h1 ▸ hpa
          · exact (ih.mp hr) x h2
        · intro _; decide
      · simp only [hr, if_neg, if_false]
        constructor
        · intro hlt
          omega
        · intro hall
          exact absurd (ih.mpr (fun x hx => hall x (List.mem_cons_of_mem a hx))) hr

theorem findIndexInt_lt_zero_eq (p : List Char → Bool)
    (l : List (List Char)) (h : findIndexInt p l < 0) :
    findIndexInt p l = -1 := by
  induction l with
  | nil => rfl
  | cons a rest ih =>
    simp only [findIndexInt] at h ⊢
    by_cases hpa : p a
    · simp [hpa] at h
    · simp only [hpa, if_false] at h ⊢
      by_cases hr : findIndexInt p rest < 0
      · simp [hr]
      · simp only [hr, if_neg, if_false] at h ⊢
        omega

theorem findIndexInt_first (p : List Char → Bool) (l : List (List Char))
    (i : Nat) (hi : i < l.length) (hp : p (l.get ⟨i, hi⟩) = true)
    (hfirst : ∀ j (hj : j < l.length), j < i → p (l.get ⟨j, hj⟩) = false) :
    findIndexInt p l = (i : Int) := by
  induction l generalizing i with
  | nil => exact absurd hi (Nat.not_lt_zero i)
  | cons a rest ih =>
    cases i with
    | zero =>
      simp only [List.get] at hp
      simp [findIndexInt, hp]
    | succ k =>
      have ha : p a = false := hfirst 0 (Nat.succ_pos _) (Nat.succ_pos _)
      have hk : findIndexInt p rest = (k : Int) := by
        refine ih k (Nat.lt_of_succ_lt_succ hi) hp ?_
        intro j hj hjk
        exact hfirst (j + 1) (Nat.succ_lt_succ hj) (Nat.succ_lt_succ hjk)
      simp only [findIndexInt, ha, Bool.false_eq_true, if_false, hk]
      have : ¬ ((k : Int) < 0) := by omega
      simp only [this, if_false]
      omega

theorem getLineNumber_single (pat : Pat) (lines : List (List Char))
    (isB : Bool) (i : Nat) (hi : i < lines.length)
    (hp : lineMatches pat (lines.get ⟨i, hi⟩) = true)
    (hfirst : ∀ j (hj : j < lines.length), j < i →
      lineMatches pat (lines.get ⟨j, hj⟩) = false) :
    getLineNumber pat lines isB = (i : Int) + (if isB then 0 else 1) := by
  have hidx := findIndexInt_first (fun l => lineMatches pat l) lines i hi hp
    hfirst
  simp only [getLineNumber, hidx]
  rw [if_neg (show ¬ ((i : Int) < 0) by omega)]

theorem getLineNumber_fallback_before (pat : Pat) (lines : List (List Char))
    (m : MatchRes) (hnone : ∀ l ∈ lines, lineMatches pat l = false)
    (hm : patSearch pat (joinWith lfS lines) = some m) :
    getLineNumber pat lines true =
      (countLF ((joinWith lfS lines).take m.index) : Int) := by
  have hneg : findIndexInt (fun l => lineMatches pat l) lines < 0 :=
    (findIndexInt_neg_iff _ lines).mpr hnone
  simp only [getLineNumber, hneg, if_pos, hm, if_true, splitEOLRegex_length]
  push_cast
  omega

theorem getLineNumber_fallback_after (pat : Pat) (lines : List (List Char))
    (m : MatchRes) (hnone : ∀ l ∈ lines, lineMatches pat l = false)
    (hm : patSearch pat (joinWith lfS lines) = some m) :
    getLineNumber pat lines false =
      ((countLF ((joinWith lfS lines).take
        (m.index + (matchToString m).length)) + 1 : Nat) : Int) := by
  have hneg : findIndexInt (fun l => lineMatches pat l) lines < 0 :=
    (findIndexInt_neg_iff _ lines).mpr hnone
  simp only [getLineNumber, hneg, if_pos, hm, Bool.false_eq_true, if_false,
    splitEOLRegex_length]

theorem getLineNumber_neg_iff (pat : Pat) (lines : List (List Char))
    (isB : Bool) :
    getLineNumber pat lines isB < 0 ↔
      ((∀ l ∈ lines, lineMatches pat l = false) ∧
        patSearch pat (joinWith lfS lines) = none) := by
  constructor
  · intro h
    by_cases hneg : findIndexInt (fun l => lineMatches pat l) lines < 0
    · refine ⟨(findIndexInt_neg_iff _ lines).mp hneg, ?_⟩
      cases hps : patSearch pat (joinWith lfS lines) with
      | none => rfl
      | some m =>
        exfalso
        simp only [getLineNumber, hneg, if_pos, hps] at h
        cases isB with
        | true =>
          simp only [if_true, splitEOLRegex_length] at h
          omega
        | false =>
          simp only [Bool.false_eq_true, if_false, splitEOLRegex_length] at h
          omega
    · exfalso
      simp only [getLineNumber, hneg, if_false] at h
      have h2 := Int.not_lt.mp hneg
      cases isB with
      | true => rw [if_pos rfl] at h; omega
      | false => rw [if_neg (by decide)] at h; omega
  · rintro ⟨hall, hps⟩
    have hneg : findIndexInt (fun l => lineMatches pat l) lines < 0 :=
      (findIndexInt_neg_iff _ lines).mpr hall
    simp only [getLineNumber, hneg, if_pos, hps]

theorem parseLiteralAtoms_cons (c : Char) (rest : List Char) :
    parseLiteralAtoms (c :: rest) =
      if c = '\\' then
        (match rest with
         | [] => none
         | d :: rest2 => (parseLiteralAtoms rest2).map (fun l => d :: l))
      else if c ∈ metachars then none
      else (parseLiteralAtoms rest).map (fun l => c :: l) := by
  rw [parseLiteralAtoms.eq_def]

theorem compileLit_escape (p : List Char) : compileLit p = some p := by
  rw [compileLit]
  induction p with
  | nil => rfl
  | cons c rest ih =>
    rw [escapeString]
    by_cases hc : c ∈ metachars
    · have hcs : (if c ∈ metachars then ['\\', c] else [c]) = ['\\', c] :=
        if_pos hc
      rw [hcs]
      show parseLiteralAtoms ('\\' :: c :: escapeString rest) = some (c :: rest)
      rw [parseLiteralAtoms_cons, if_pos rfl]
      show (parseLiteralAtoms (escapeString rest)).map (fun l => c :: l) =
        some (c :: rest)
      rw [ih]
      rfl
    · have hcs : (if c ∈ metachars then ['\\', c] else [c]) = [c] := if_neg hc
      rw [hcs]
      have hbs : c ≠ '\\' := fun hb => hc (hb ▸ (by decide))
      rw [List.singleton_append, parseLiteralAtoms_cons, if_neg hbs,
        if_neg hc, ih]
      rfl

theorem patSearch_lit (p s : List Char) :
    patSearch (Pat.lit p) s =
      (litIndex p s).map (fun i => { index := i, entries := [p] }) := by
  rw [patSearch, compileLit_escape]

theorem optionMapIsSome {A B : Type} (f : A → B) (o : Option A) :
    (o.map f).isSome = o.isSome := by
  cases o <;> rfl

theorem litIndex_isSome_iff (p l : List Char) :
    (litIndex p l).isSome = true ↔ SubstringOf p l := by
  induction l with
  | nil =>
    rw [litIndex]
    by_cases hp : p = []
    · subst hp
      constructor
      · intro _
        exact ⟨[], [], rfl⟩
      · intro _
        decide
    · simp only [hp, if_false, Option.isSome_none, Bool.false_eq_true,
        false_iff]
      rintro ⟨t, u, htu⟩
      exact hp (by
        have := List.append_eq_nil.mp
          (List.append_eq_nil.mp htu.symm).1
        exact this.2)
  | cons c rest ih =>
    rw [litIndex]
    by_cases hpre : p.isPrefixOf (c :: rest)
    · simp only [hpre, if_pos, Option.isSome_some, true_iff]
      obtain ⟨u, hu⟩ := (isPrefixOf_iff_exists p (c :: rest)).mp hpre
      exact ⟨[], u, by simpa using hu⟩
    · rw [if_neg hpre, optionMapIsSome, ih]
      constructor
      · rintro ⟨t, u, htu⟩
        exact ⟨c :: t, u, by rw [htu]; rfl⟩
      · rintro ⟨t, u, htu⟩
        cases t with
        | nil =>
          exfalso
          exact hpre ((isPrefixOf_iff_exists p (c :: rest)).mpr
            ⟨u, by simpa using htu⟩)
        | cons d t' =>
          refine ⟨t', u, ?_⟩
          have := htu
          simp only [List.cons_append, List.cons.injEq] at this
          exact this.2

theorem lineMatches_lit_iff (p l : List Char) :
    lineMatches (Pat.lit p) l = true ↔ SubstringOf p l := by
  rw [lineMatches, patSearch_lit, optionMapIsSome]
  exact litIndex_isSome_iff p l

theorem mem_insertClamped (l : List (List Char)) (i : Nat) (x p : List Char)
    (hp : p ∈ insertClamped l i x) : p ∈ l ∨ p = x := by
  rw [insertClamped] at hp
  rcases List.mem_append.mp hp with h1 | h2
  · exact Or.inl ((List.take_sublist i l).mem h1)
  · rcases List.mem_cons.mp h2 with h3 | h4
    · exact Or.inr h3
    · exact Or.inl ((List.drop_sublist i l).mem h4)

theorem newline_crlf (EOL s : List Char) (hlf : lfCount s = 0)
    (hcr : 0 < crlfCount s) : newline EOL s = crlfS := by
  rw [newline, if_neg (by omega), if_pos (by omega)]

theorem newline_lf (EOL s : List Char) (hcr : crlfCount s = 0)
    (hlf : 0 < lfCount s) : newline EOL s = lfS := by
  rw [newline, if_neg (by omega), if_neg (by omega)]

theorem newline_ne_nil (EOL s : List Char) (hEOL : EOL = lfS ∨ EOL = crlfS) :
    newline EOL s ≠ [] := by
  rw [newline]
  split
  · rcases hEOL with h | h <;> subst h <;> simp [lfS, crlfS]
  · split
    · simp [crlfS]
    · simp [lfS]

/-- The file content written by an `inject` whose target's newline
occurrences are all CRLF (at least one) and whose inserted content contains
no LF has no bare-LF newline occurrence at all: every separator in the
written file is CRLF. -/
theorem injectWritten_crlf_all (EOL s content : List Char) (idx : Int)
    (hlf : lfCount s = 0) (hcr : 0 < crlfCount s) (hc : '\n' ∉ content) :
    lfCount (injectWritten EOL s content idx) = 0 := by
  rw [injectWritten]
  simp only [newline_crlf EOL s hlf hcr]
  have hsplit : splitOnStr crlfS s = splitOnAux '\r' ['\n'] s [] := rfl
  rw [hsplit]
  have hparts := splitOnAux_crlf_no_lf s [] hlf (List.not_mem_nil '\n')
  apply lfCount_joinWith_crlf
  intro p hp
  by_cases hidx : 0 ≤ idx
  · rw [if_pos hidx] at hp
    rcases mem_insertClamped _ _ _ _ hp with h1 | h2
    · exact hparts p h1
    · exact h2 ▸ hc
  · rw [if_neg hidx] at hp
    exact hparts p hp

/-- The file content written by an `inject` whose target contains at least
one LF and no CR at all, with inserted content containing no CR, has no
CRLF newline occurrence: every separator in the written file is a bare
LF. -/
theorem injectWritten_lf_all (EOL s content : List Char) (idx : Int)
    (hcr : '\r' ∉ s) (hlf : 0 < lfCount s) (hc : '\r' ∉ content) :
    crlfCount (injectWritten EOL s content idx) = 0 := by
  rw [injectWritten]
  simp only [newline_lf EOL s (countNewlines_no_cr s hcr) hlf]
  have hsplit : splitOnStr lfS s = splitOnAux '\n' [] s [] := rfl
  rw [hsplit]
  have hparts : ∀ p ∈ splitOnAux '\n' [] s [], '\r' ∉ p := by
    intro p hp hmem
    rcases splitOnAux_mem_chars '\n' [] s [] p hp '\r' hmem with h1 | h2
    · exact hcr h1
    · exact List.not_mem_nil '\r' h2
  apply countNewlines_no_cr
  intro hmem
  rcases mem_joinWith lfS _ '\r' hmem with ⟨p, hp, hmemp⟩ | h2
  · by_cases hidx : 0 ≤ idx
    · rw [if_pos hidx] at hp
      rcases mem_insertClamped _ _ _ _ hp with h1 | h3
      · exact hparts p h1 hmemp
      · exact hc (h3 ▸ hmemp)
    · rw [if_neg hidx] at hp
      exact hparts p hp hmemp
  · rw [lfS] at h2
    simp at h2

/-- `inject` on a resolver that yields a negative index: the splice is
skipped, so by the split/join round trip the written content is exactly the
original file content, and the run still succeeds, logs the notice and
appends the trace entry. -/
theorem injectRun_neg (EOL fileName relativeName fileContent content :
    List Char) (location : Location) (trace0 : List TraceEntry) (idx : Int)
    (pat : Option Pat) (hEOL : EOL = lfS ∨ EOL = crlfS)
    (hloc : location (splitOnStr (newline EOL fileContent) fileContent)
      relativeName = Except.ok { index := idx, pattern := pat })
    (hidx : idx < 0) :
    injectRun EOL fileName relativeName true fileContent content location
      trace0 =
    (Except.ok
      { written := fileContent
        notice := "Updated ".data ++ relativeName
        trace := trace0 ++ [⟨"inject".data, fileName, content⟩] },
     [FsOp.read fileName, FsOp.write fileName fileContent]) := by
  rw [injectRun]
  simp only [Bool.true_eq_false, if_false, hloc]
  have hw : injectWritten EOL fileContent content idx = fileContent := by
    rw [injectWritten]
    simp only [if_neg (show ¬ (0 ≤ idx) by omega)]
    exact joinWith_splitOnStr _ _ (newline_ne_nil EOL fileContent hEOL)
  rw [hw]

/-- C1: for every line sequence and pattern with a matching line, the
`before` resolver yields the index of the first line (top-to-bottom, first
match wins) whose text matches the pattern, and the `after` resolver yields
that index plus one. -/
theorem claim_C1 (pat : Pat) (lines : List (List Char)) (fileName : List Char)
    (i : Nat) (hi : i < lines.length)
    (hp : lineMatches pat (lines.get ⟨i, hi⟩) = true)
    (hfirst : ∀ j (hj : j < lines.length), j < i →
      lineMatches pat (lines.get ⟨j, hj⟩) = false) :
    beforeRun pat lines fileName =
      Except.ok { index := (i : Int), pattern := some pat } ∧
    afterRun pat lines fileName =
      Except.ok { index := (i : Int) + 1, pattern := some pat } := by
  have hb := getLineNumber_single pat lines true i hi hp hfirst
  have ha := getLineNumber_single pat lines false i hi hp hfirst
  rw [if_pos rfl] at hb
  rw [if_neg (by decide)] at ha
  constructor
  · simp only [beforeRun, hb]
    rw [if_neg (by omega)]
    norm_num
  · simp only [afterRun, ha]
    rw [if_neg (by omega)]

/-- C1 witness: on lines `["A","B","C"]` with pattern `"B"`, `before` yields
index 1 and `after` yields index 2, and inserting `"X"` at those indices
produces `["A","X","B","C"]` and `["A","B","X","C"]` respectively. -/
theorem claim_C1_witness :
    beforeRun (Pat.lit "B".data) ["A".data, "B".data, "C".data] "f".data =
      Except.ok { index := 1, pattern := some (Pat.lit "B".data) } ∧
    afterRun (Pat.lit "B".data) ["A".data, "B".data, "C".data] "f".data =
      Except.ok { index := 2, pattern := some (Pat.lit "B".data) } ∧
    insertClamped ["A".data, "B".data, "C".data] 1 "X".data =
      ["A".data, "X".data, "B".data, "C".data] ∧
    insertClamped ["A".data, "B".data, "C".data] 2 "X".data =
      ["A".data, "B".data, "X".data, "C".data] := by
  have h := claim_C1 (Pat.lit "B".data) ["A".data, "B".data, "C".data]
    "f".data 1 (by decide) (by decide) (by decide)
  exact ⟨h.1, h.2, by decide, by decide⟩

/-- C4: when no single line matches but the pattern matches the lines
joined with `"\n"`, `before` yields the zero-based line number on which the
match begins — the number of newline-delimited segments preceding the
match's start offset. -/
theorem claim_C4 (pat : Pat) (lines : List (List Char))
    (fileName : List Char) (m : MatchRes)
    (hnone : ∀ l ∈ lines, lineMatches pat l = false)
    (hm : patSearch pat (joinWith lfS lines) = some m) :
    beforeRun pat lines fileName =
      Except.ok
        { index := (lineOfOffset (joinWith lfS lines) m.index : Int)
          pattern := some pat } := by
  have hg := getLineNumber_fallback_before pat lines m hnone hm
  simp only [beforeRun, hg]
  rw [if_neg (by omega)]
  rfl

/-- C4 witness: on lines `["A","B","C"]` with the literal pattern `"B\nC"`
(which matches no single line but spans lines 1-2 of the joined text),
`before` resolves to index 1, the line on which the match begins. -/
theorem claim_C4_witness :
    beforeRun (Pat.lit "B\nC".data) ["A".data, "B".data, "C".data]
      "f".data =
      Except.ok { index := 1, pattern := some (Pat.lit "B\nC".data) } ∧
    lineOfOffset (joinWith lfS ["A".data, "B".data, "C".data]) 2 = 1 := by
  have h := claim_C4 (Pat.lit "B\nC".data)
    ["A".data, "B".data, "C".data] "f".data
    { index := 2, entries := ["B\nC".data] } (by decide) (by decide)
  exact ⟨h, by decide⟩

/-- C5 counterexample: with the regex `/B(\nC)/` (a capture group) on lines
`["A","B","C","D","E"]`, the cross-line match starts at offset 2 and ends
at offset 5, which lies on line 2, so the claim predicts index 3; but
`after` computes the match's length from the comma-joined match array
(`"B\nC,\nC"`, 7 characters) and yields index 5 instead. -/
theorem claim_C5_counterexample :
    afterRun groupPat
      ["A".data, "B".data, "C".data, "D".data, "E".data] "f".data =
      Except.ok { index := 5, pattern := some groupPat } ∧
    lineOfOffset
      (joinWith lfS ["A".data, "B".data, "C".data, "D".data, "E".data])
      (2 + ("B\nC".data).length) + 1 = 3 ∧
    (5 : Int) ≠ ((3 : Nat) : Int) := by
  refine ⟨rfl, by decide, by decide⟩

/-- C5 (amended): when no single line matches and the cross-line match's
array is a single entry (no capture groups), `after` yields one past the
line containing the match's end offset; with capture groups the end offset
is instead computed from the comma-joined match array. -/
theorem claim_C5_amended (pat : Pat) (lines : List (List Char))
    (fileName : List Char) (m : MatchRes) (t : List Char)
    (hnone : ∀ l ∈ lines, lineMatches pat l = false)
    (hm : patSearch pat (joinWith lfS lines) = some m)
    (hent : m.entries = [t]) :
    afterRun pat lines fileName =
      Except.ok
        { index := ((lineOfOffset (joinWith lfS lines)
            (m.index + t.length) + 1 : Nat) : Int)
          pattern := some pat } := by
  have hg := getLineNumber_fallback_after pat lines m hnone hm
  have hts : matchToString m = t := by rw [matchToString, hent]; rfl
  rw [hts] at hg
  simp only [afterRun, hg]
  rw [if_neg (by omega)]
  rfl

/-- C5 amended witness: with the literal pattern `"B\nC"` on lines
`["A","B","C"]`, the cross-line match ends at offset 5 on line 2, and
`after` resolves to index 3. -/
theorem claim_C5_witness :
    afterRun (Pat.lit "B\nC".data) ["A".data, "B".data, "C".data]
      "f".data =
      Except.ok { index := 3, pattern := some (Pat.lit "B\nC".data) } := by
  have h := claim_C5_amended (Pat.lit "B\nC".data)
    ["A".data, "B".data, "C".data] "f".data
    { index := 2, entries := ["B\nC".data] } "B\nC".data
    (by decide) (by decide) rfl
  exact h

/-- C2 counterexample: the file `"a\r\nb\r\nc\nd"` has 2 CRLF and 1 bare-LF
newline occurrences, so CRLF is the strict majority; after injecting `"X"`
at index 0 the written content still contains the original bare LF
separator (between `c` and `d`), so not every original separator in the
written content is CRLF. -/
theorem claim_C2_counterexample :
    crlfCount "a\r\nb\r\nc\nd".data = 2 ∧
    lfCount "a\r\nb\r\nc\nd".data = 1 ∧
    injectWritten lfS "a\r\nb\r\nc\nd".data "X".data 0 =
      "X\r\na\r\nb\r\nc\nd".data ∧
    lfCount (injectWritten lfS "a\r\nb\r\nc\nd".data "X".data 0) = 1 := by
  have h1 : newline lfS "a\r\nb\r\nc\nd".data = crlfS := by decide
  have h2 : splitOnStr crlfS "a\r\nb\r\nc\nd".data =
      ["a".data, "b".data, "c\nd".data] := by
    simp +decide [splitOnStr, splitOnAux, crlfS]
  have h3 : injectWritten lfS "a\r\nb\r\nc\nd".data "X".data 0 =
      "X\r\na\r\nb\r\nc\nd".data := by
    rw [injectWritten, h1, h2]
    decide
  exact ⟨by decide, by decide, h3, by rw [h3]; decide⟩

/-- C2 (amended): the detected convention is the platform default when the
content has no newline occurrence, CRLF exactly when the CRLF count
strictly exceeds the bare-LF count, and LF on a tie or LF majority; and
for content to insert that contains no newline characters, injecting into
a file whose newline occurrences are all CRLF (at least one) leaves every
separator of the written content CRLF, while injecting CR-free content
into a file that contains at least one LF and no CR leaves every separator
a bare LF. -/
theorem claim_C2_amended (EOL s content : List Char) (idx : Int) :
    (crlfCount s + lfCount s = 0 → newline EOL s = EOL) ∧
    (0 < crlfCount s + lfCount s →
      ((newline EOL s = crlfS ↔ lfCount s < crlfCount s) ∧
       (newline EOL s = lfS ↔ crlfCount s ≤ lfCount s))) ∧
    (lfCount s = 0 → 0 < crlfCount s → '\n' ∉ content →
      lfCount (injectWritten EOL s content idx) = 0) ∧
    ('\r' ∉ s → 0 < lfCount s → '\r' ∉ content →
      crlfCount (injectWritten EOL s content idx) = 0) := by
  refine ⟨?_, ?_, ?_, ?_⟩
  · intro h0
    rw [newline, if_pos h0]
  · intro hpos
    constructor
    · constructor
      · intro hn
        by_contra hlt
        rw [newline, if_neg (by omega), if_neg hlt] at hn
        exact (by decide : lfS ≠ crlfS) hn
      · intro hlt
        rw [newline, if_neg (by omega), if_pos hlt]
    · constructor
      · intro hn
        by_contra hle
        rw [newline, if_neg (by omega), if_pos (by omega)] at hn
        exact (by decide : crlfS ≠ lfS) hn
      · intro hle
        rw [newline, if_neg (by omega), if_neg (by omega)]
  · intro hlf hcr hc
    exact injectWritten_crlf_all EOL s content idx hlf hcr hc
  · intro hcr hlf hc
    exact injectWritten_lf_all EOL s content idx hcr hlf hc

/-- C2 witness: the platform fallback on newline-free content, the CRLF and
LF detections, and both preservation statements, each at a concrete
input. -/
theorem claim_C2_witness :
    newline lfS "abc".data = lfS ∧
    newline lfS "u\r\nv\r\nw\nx".data = crlfS ∧
    newline crlfS "u\r\nv\nw\nx".data = lfS ∧
    lfCount (injectWritten lfS "a\r\nb\r\n".data "X".data 0) = 0 ∧
    crlfCount (injectWritten crlfS "a\nb\n".data "X".data 0) = 0 := by
  refine ⟨(claim_C2_amended lfS "abc".data "X".data 0).1 (by decide),
    ((claim_C2_amended lfS "u\r\nv\r\nw\nx".data "X".data 0).2.1
      (by decide)).1.mpr (by decide),
    ((claim_C2_amended crlfS "u\r\nv\nw\nx".data "X".data 0).2.1
      (by decide)).2.mpr (by decide),
    (claim_C2_amended lfS "a\r\nb\r\n".data "X".data 0).2.2.1
      (by decide) (by decide) (by decide),
    (claim_C2_amended crlfS "a\nb\n".data "X".data 0).2.2.2
      (by decide) (by decide) (by decide)⟩

/-- C3 counterexample: with a resolver that yields index −1 on the existing
file `"a\nb"`, the inject operation does not fail: it succeeds, performs
the write (with the unchanged content) and records the `inject` trace
entry. -/
theorem claim_C3_counterexample :
    injectRun lfS "f".data "f".data true "a\nb".data "X".data
      (fun _lines _fn => Except.ok { index := -1, pattern := none }) [] =
    (Except.ok
      { written := "a\nb".data
        notice := "Updated f".data
        trace := [⟨"inject".data, "f".data, "X".data⟩] },
     [FsOp.read "f".data, FsOp.write "f".data "a\nb".data]) := by
  exact injectRun_neg lfS "f".data "f".data "a\nb".data "X".data
    (fun _lines _fn => Except.ok { index := -1, pattern := none }) []
    (-1) none (Or.inl rfl) rfl (by decide)

/-- C3 (amended): if the anchor resolver returns a negative insertion
index, inject does not fail: it skips the insertion, writes the file with
content identical to the original, and still records the trace entry. -/
theorem claim_C3_amended (EOL fileName relativeName fileContent content :
    List Char) (location : Location) (trace0 : List TraceEntry) (idx : Int)
    (pat : Option Pat) (hEOL : EOL = lfS ∨ EOL = crlfS)
    (hloc : location (splitOnStr (newline EOL fileContent) fileContent)
      relativeName = Except.ok { index := idx, pattern := pat })
    (hidx : idx < 0) :
    (injectRun EOL fileName relativeName true fileContent content location
      trace0).1 =
      Except.ok
        { written := fileContent
          notice := "Updated ".data ++ relativeName
          trace := trace0 ++ [⟨"inject".data, fileName, content⟩] } ∧
    (injectRun EOL fileName relativeName true fileContent content location
      trace0).2 =
      [FsOp.read fileName, FsOp.write fileName fileContent] := by
  rw [injectRun_neg EOL fileName relativeName fileContent content location
    trace0 idx pat hEOL hloc hidx]
  exact ⟨rfl, rfl⟩

/-- C3 amended witness: a concrete run with a resolver yielding −2. -/
theorem claim_C3_witness :
    (injectRun lfS "g".data "g".data true "p\nq".data "Y".data
      (fun _lines _fn => Except.ok { index := -2, pattern := none }) []).1 =
      Except.ok
        { written := "p\nq".data
          notice := "Updated g".data
          trace := [⟨"inject".data, "g".data, "Y".data⟩] } := by
  exact (claim_C3_amended lfS "g".data "g".data "p\nq".data "Y".data
    (fun _lines _fn => Except.ok { index := -2, pattern := none }) []
    (-2) none (Or.inl rfl) rfl (by decide)).1

/-- C6: `before` (respectively `after`) fails exactly when neither the
single-line search nor the cross-line fallback finds a match, and then the
error message is exactly
`Could not find line '<pattern>' in file <fileName> to inject content
before` (respectively `...after`), formed from the pattern's display text
and the file name passed by `inject`. -/
theorem claim_C6 (pat : Pat) (lines : List (List Char))
    (fileName : List Char) :
    ((∃ e, beforeRun pat lines fileName = Except.error e) ↔
      ((∀ l ∈ lines, lineMatches pat l = false) ∧
        patSearch pat (joinWith lfS lines) = none)) ∧
    (((∀ l ∈ lines, lineMatches pat l = false) ∧
        patSearch pat (joinWith lfS lines) = none) →
      beforeRun pat lines fileName = Except.error (beforeMsg pat fileName)) ∧
    ((∃ e, afterRun pat lines fileName = Except.error e) ↔
      ((∀ l ∈ lines, lineMatches pat l = false) ∧
        patSearch pat (joinWith lfS lines) = none)) ∧
    (((∀ l ∈ lines, lineMatches pat l = false) ∧
        patSearch pat (joinWith lfS lines) = none) →
      afterRun pat lines fileName = Except.error (afterMsg pat fileName)) := by
  have hb := getLineNumber_neg_iff pat lines true
  have ha := getLineNumber_neg_iff pat lines false
  refine ⟨?_, ?_, ?_, ?_⟩
  · rw [beforeRun]
    by_cases hneg : getLineNumber pat lines true < 0
    · rw [if_pos hneg]
      exact Iff.intro (fun _ => hb.mp hneg)
        (fun _ => ⟨beforeMsg pat fileName, rfl⟩)
    · rw [if_neg hneg]
      constructor
      · rintro ⟨e, he⟩
        exact absurd he (by simp)
      · intro hc
        exact absurd (hb.mpr hc) hneg
  · intro hc
    rw [beforeRun, if_pos (hb.mpr hc)]
  · rw [afterRun]
    by_cases hneg : getLineNumber pat lines false < 0
    · rw [if_pos hneg]
      exact Iff.intro (fun _ => ha.mp hneg)
        (fun _ => ⟨afterMsg pat fileName, rfl⟩)
    · rw [if_neg hneg]
      constructor
      · rintro ⟨e, he⟩
        exact absurd he (by simp)
      · intro hc
        exact absurd (ha.mpr hc) hneg
  · intro hc
    rw [afterRun, if_pos (ha.mpr hc)]

/-- C6 witness: `before("ZZZ")` and `after("ZZZ")` on the single line `"A"`
fail with exactly the specified messages. -/
theorem claim_C6_witness :
    beforeRun (Pat.lit "ZZZ".data) ["A".data] "f.txt".data =
      Except.error ("Could not find line ".data ++ [quoteC] ++ "ZZZ".data ++
        [quoteC] ++ " in file ".data ++ "f.txt".data ++
        " to inject content before".data) ∧
    afterRun (Pat.lit "ZZZ".data) ["A".data] "f.txt".data =
      Except.error ("Could not find line ".data ++ [quoteC] ++ "ZZZ".data ++
        [quoteC] ++ " in file ".data ++ "f.txt".data ++
        " to inject content after".data) := by
  have h := claim_C6 (Pat.lit "ZZZ".data) ["A".data] "f.txt".data
  exact ⟨h.2.1 ⟨by decide, by decide⟩, h.2.2.2 ⟨by decide, by decide⟩⟩

/-- C7: when the target file does not exist, inject fails with the message
`Cannot inject to '<fileName>'. The file doesn't exist.` — which names the
resolved path — and performs no file-system operation at all, in
particular no read and no write. -/
theorem claim_C7 (EOL fileName relativeName fileContent content :
    List Char) (location : Location) (trace0 : List TraceEntry) :
    injectRun EOL fileName relativeName false fileContent content location
      trace0 = (Except.error (cannotInjectMsg fileName), []) ∧
    SubstringOf fileName (cannotInjectMsg fileName) := by
  constructor
  · rw [injectRun, if_pos rfl]
  · refine ⟨"Cannot inject to ".data ++ [quoteC],
      [quoteC] ++ ". The file doesn".data ++ [quoteC] ++ "t exist.".data,
      ?_⟩
    rw [cannotInjectMsg]
    simp [List.append_assoc]

/-- C8: `prepend` always yields index 0 and `append` always yields the
number of lines, for every line sequence and file name, never failing and
never yielding a negative index. -/
theorem claim_C8 (lines : List (List Char)) (fileName : List Char) :
    prependLoc lines fileName =
      Except.ok { index := 0, pattern := none } ∧
    appendLoc lines fileName =
      Except.ok { index := (lines.length : Int), pattern := none } ∧
    (0 : Int) ≤ (lines.length : Int) := by
  exact ⟨rfl, rfl, by omega⟩

/-- C9: a literal string pattern is escaped (every regex metacharacter
prefixed with a backslash) and compiles back to exactly its own literal
text, so it matches a line precisely when that line contains the literal
text as a substring — e.g. `"a.b(c)"` matches only lines containing that
exact text, not lines where `.` would match an arbitrary character — while
a regex pattern's search function is used unmodified. -/
theorem claim_C9 :
    (∀ p : List Char, compileLit p = some p) ∧
    (∀ p l : List Char,
      lineMatches (Pat.lit p) l = true ↔ SubstringOf p l) ∧
    (∀ (f : List Char → Option MatchRes) (d s : List Char),
      patSearch (Pat.re f d) s = f s) ∧
    lineMatches (Pat.lit "a.b(c)".data) "xa.b(c)y".data = true ∧
    lineMatches (Pat.lit "a.b(c)".data) "xaXb(c)y".data = false := by
  exact ⟨compileLit_escape, lineMatches_lit_iff, fun f d s => rfl,
    by decide, by decide⟩

/-- C9 witness: the escaped literal `"a.b(c)"` matches a line containing
exactly that text. -/
theorem claim_C9_witness :
    lineMatches (Pat.lit "a.b(c)".data) "za.b(c)w".data = true := by
  exact (claim_C9.2.1 "a.b(c)".data "za.b(c)w".data).mpr
    ⟨"z".data, "w".data, by decide⟩

/-- C10: splitting any content on its detected dominant newline separator
and rejoining with the same separator restores the content exactly;
consequently, when the anchor resolver yields a negative index, inject
rewrites the file with content identical to the original and still emits
the notice log and appends the `{action: "inject", fileName, content}`
trace entry. -/
theorem claim_C10 (EOL s fileName relativeName content : List Char)
    (location : Location) (trace0 : List TraceEntry) (idx : Int)
    (pat : Option Pat) (hEOL : EOL = lfS ∨ EOL = crlfS)
    (hloc : location (splitOnStr (newline EOL s) s) relativeName =
      Except.ok { index := idx, pattern := pat })
    (hidx : idx < 0) :
    joinWith (newline EOL s) (splitOnStr (newline EOL s) s) = s ∧
    injectRun EOL fileName relativeName true s content location trace0 =
      (Except.ok
        { written := s
          notice := "Updated ".data ++ relativeName
          trace := trace0 ++ [⟨"inject".data, fileName, content⟩] },
       [FsOp.read fileName, FsOp.write fileName s]) := by
  exact ⟨joinWith_splitOnStr _ _ (newline_ne_nil EOL s hEOL),
    injectRun_neg EOL fileName relativeName s content location trace0 idx
      pat hEOL hloc hidx⟩

/-- C10 witness: a concrete CRLF file `"m\r\nn"` round-trips through the
detected separator, and a run with a resolver yielding −1 writes the
original content, logs the notice and records the trace entry. -/
theorem claim_C10_witness :
    joinWith (newline crlfS "m\r\nn".data)
      (splitOnStr (newline crlfS "m\r\nn".data) "m\r\nn".data) =
      "m\r\nn".data ∧
    injectRun crlfS "h".data "h".data true "m\r\nn".data "Z".data
      (fun _lines _fn => Except.ok { index := -1, pattern := none }) [] =
      (Except.ok
        { written := "m\r\nn".data
          notice := "Updated h".data
          trace := [⟨"inject".data, "h".data, "Z".data⟩] },
       [FsOp.read "h".data, FsOp.write "h".data "m\r\nn".data]) := by
  exact claim_C10 crlfS "m\r\nn".data "h".data "h".data "Z".data
    (fun _lines _fn => Except.ok { index := -1, pattern := none }) []
    (-1) none (Or.inr rfl) rfl (by decide)

end Pinion
